import Mathlib

set_option maxHeartbeats 1000000

/-!
Shallow embedding of the rardecode library (reader.go, fs.go, and the
volume / block-header modules) sufficient to state and settle the claims
about file-block lists, the RAR5 block-header size validation, the
signature scan, the decode stack and the filesystem view.

Modelling conventions:
* Go strings are modelled as `List Char`; Go byte slices as `List Nat`
  (each entry `< 256` where it matters).
* Go `error` values of this package are the `RarError` inductive below;
  `io.EOF` is the value `RarError.eof` (Go errors are compared by value).
* Stateful readers are modelled by explicit state passing: every read
  step returns its result together with the updated state.
-/

/-- The error values used by the package (`reader.go` vars plus the
volume/parser errors; `io.EOF` and `errVolumeOrArchiveEnd` included as
values since the Go code compares errors by identity). -/
inductive RarError where
  | eof
  | volumeOrArchiveEnd
  | multiVolume
  | shortFile
  | invalidFileBlock
  | unexpectedArcEnd
  | badFileChecksum
  | solidOpen
  | unknownVersion
  | archivedFileEncrypted
  | corruptBlockHeader
  | badHeaderCRC
  | noSig
  deriving DecidableEq, Repr

/-- `fileBlockHeader` (declared in the archive parsing module; fields as
used by `reader.go` / `fs.go`): the embedded `FileHeader` fields plus the
block-level fields `first`, `last`, `volnum`, `dataOff`, `blocknum`,
`packedOff` and the encryption / hash material.  The Go `hash func()
hash.Hash` field is modelled by an `Option Unit` presence flag. -/
structure fileBlockHeader where
  Name : List Char := []
  first : Bool := false
  last : Bool := false
  IsDir : Bool := false
  Solid : Bool := false
  arcSolid : Bool := false
  Encrypted : Bool := false
  UnPackedSize : Int := 0
  UnKnownSize : Bool := false
  PackedSize : Int := 0
  packedOff : Int := 0
  blocknum : Nat := 0
  dataOff : Int := 0
  volnum : Nat := 0
  decVer : Nat := 0
  winSize : Nat := 0
  hash : Option Unit := none
  hashKey : List Nat := []
  sum : List Nat := []
  key : Option (List Nat) := none
  iv : List Nat := []
  Version : Int := 0
  deriving DecidableEq, Repr

instance : Inhabited fileBlockHeader := ⟨{}⟩

/-- `fileBlockList.addBlock` (reader.go:168-174): append-only and
idempotent w.r.t. `blocknum`; the block is appended only when
`len(fl.blocks) == h.blocknum`. -/
def addBlock (blocks : List fileBlockHeader) (h : fileBlockHeader) :
    List fileBlockHeader :=
  if blocks.length = h.blocknum then blocks ++ [h] else blocks

/-- The state of a `packedFileReader` that is positioned inside a file:
the current block header `f.h` and the file-block list `f.blocks`
(reader.go:200-208; the byte offset is irrelevant to the block-list
claims). -/
structure pfrState where
  h : fileBlockHeader
  blocks : List fileBlockHeader
  deriving Repr

/-- `packedFileReader.nextBlock` (reader.go:228-254), with the volume
parser's answer `f.v.nextBlock()` supplied as the argument `vres`.
The `f.h == nil` guard of the Go code cannot arise here because a
`pfrState` always carries a current header. -/
def pfrNextBlock (s : pfrState) (vres : Except RarError fileBlockHeader) :
    Except RarError pfrState :=
  if s.h.last then .error .eof
  else
    match vres with
    | .error e =>
        if e = .eof then .error .unexpectedArcEnd
        else if e = .volumeOrArchiveEnd then .error .multiVolume
        else .error e
    | .ok vh =>
        if vh.first = true ∨ vh.Name ≠ s.h.Name then .error .invalidFileBlock
        else
          let nh := { vh with packedOff := s.h.packedOff + s.h.PackedSize,
                              blocknum := s.h.blocknum + 1 }
          .ok { h := nh, blocks := addBlock s.blocks nh }

/-- One `nextBlock` attempt as seen by the file-block list: on an error
return the reader state (and hence the list) is left unchanged. -/
def pfrStep (s : pfrState) (vres : Except RarError fileBlockHeader) : pfrState :=
  match pfrNextBlock s vres with
  | .ok s' => s'
  | .error _ => s

/-- A sequence of `nextBlock` attempts against the volume answers `vs`. -/
def pfrRun (s : pfrState) (vs : List (Except RarError fileBlockHeader)) : pfrState :=
  vs.foldl pfrStep s

/-- The tail end of `packedFileReader.nextFile` (reader.go:266-281): the
volume parser's answer for the next file's first block is validated
(`first` must be set) and a fresh single-block list is created. -/
def pfrNextFileInit (vres : Except RarError fileBlockHeader) :
    Except RarError pfrState :=
  match vres with
  | .error e => if e = .volumeOrArchiveEnd then .error .eof else .error e
  | .ok h =>
      if h.first = false then .error .invalidFileBlock
      else .ok { h := h, blocks := [h] }

/-- The file-block-list invariant of the claim (and spec §8.1, minus the
`last` clause which only holds once the file is fully discovered):
nonempty, first block flagged `first`, `blocknum` equals the index, all
names equal the first block's name, and `packedOff` accumulates the
packed sizes. -/
def fblInvariant (bs : List fileBlockHeader) : Prop :=
  bs ≠ [] ∧
  (∀ hz : 0 < bs.length, bs[0].first = true) ∧
  (∀ i, ∀ hi : i < bs.length, bs[i].blocknum = i) ∧
  (∀ i, ∀ hi : i < bs.length, ∀ hz : 0 < bs.length, bs[i].Name = bs[0].Name) ∧
  (∀ i, ∀ hi1 : i + 1 < bs.length, ∀ hi : i < bs.length,
    bs[i + 1].packedOff = bs[i].packedOff + bs[i].PackedSize)

/-- Coupling invariant for the induction: the block list satisfies the
file-block-list invariant and the reader's current header is the last
element of the list. -/
def pfrInv (s : pfrState) : Prop :=
  fblInvariant s.blocks ∧ s.blocks.getLast? = some s.h

/-- A `nextBlock` attempt either leaves the reader state unchanged (all
error paths) or appends the relabelled continuation block. -/
theorem pfrStep_cases (s : pfrState) (v : Except RarError fileBlockHeader) :
    pfrStep s v = s ∨
    (s.h.last = false ∧ ∃ vh, v = .ok vh ∧ vh.first = false ∧
      vh.Name = s.h.Name ∧
      pfrStep s v =
        { h := { vh with packedOff := s.h.packedOff + s.h.PackedSize,
                         blocknum := s.h.blocknum + 1 },
          blocks := addBlock s.blocks
            { vh with packedOff := s.h.packedOff + s.h.PackedSize,
                      blocknum := s.h.blocknum + 1 } }) := by
  by_cases hl : s.h.last
  · left
    simp [pfrStep, pfrNextBlock, hl]
  · match v with
    | .error e =>
        left
        cases e <;> simp [pfrStep, pfrNextBlock, hl]
    | .ok vh =>
        by_cases hv : vh.first = true ∨ vh.Name ≠ s.h.Name
        · left
          simp [pfrStep, pfrNextBlock, hl, hv]
        · right
          push_neg at hv
          refine ⟨by simpa using hl, vh, rfl, by simpa using hv.1, hv.2, ?_⟩
          simp [pfrStep, pfrNextBlock, hl, hv.1, hv.2]

theorem pfrInv_step (s : pfrState) (v : Except RarError fileBlockHeader)
    (hs : pfrInv s) : pfrInv (pfrStep s v) := by
  rcases pfrStep_cases s v with heq | ⟨hl, vh, hv, hf, hn, heq⟩
  · rw [heq]; exact hs
  · obtain ⟨⟨hne, hfirst, hbn, hname, hoff⟩, hlastEq⟩ := hs
    have hlen : 0 < s.blocks.length := List.length_pos.mpr hne
    have hlast1 : s.blocks.length - 1 < s.blocks.length := by omega
    have hgetlast : s.blocks[s.blocks.length - 1] = s.h := by
      rw [List.getLast?_eq_getLast s.blocks hne] at hlastEq
      have h2 : s.blocks.getLast hne = s.h := by injection hlastEq
      rw [← h2]
      exact (List.getLast_eq_getElem s.blocks hne).symm
    have hbnlast : s.h.blocknum = s.blocks.length - 1 := by
      have := hbn (s.blocks.length - 1) (by omega)
      rw [hgetlast] at this
      exact this
    set nh : fileBlockHeader :=
      { vh with packedOff := s.h.packedOff + s.h.PackedSize,
                blocknum := s.h.blocknum + 1 } with hnh
    have hadd : addBlock s.blocks nh = s.blocks ++ [nh] := by
      unfold addBlock
      have hln : s.blocks.length = nh.blocknum := by
        rw [hnh]; simp; omega
      simp [hln]
    rw [heq, hadd]
    have hlen' : (s.blocks ++ [nh]).length = s.blocks.length + 1 := by simp
    have hgetL : ∀ i, ∀ hi : i < s.blocks.length,
        ∀ hi2 : i < (s.blocks ++ [nh]).length, (s.blocks ++ [nh])[i] = s.blocks[i] := by
      intro i hi hi2
      exact List.getElem_append_left hi
    have hgetR : ∀ hb : s.blocks.length < (s.blocks ++ [nh]).length,
        (s.blocks ++ [nh])[s.blocks.length] = nh := by
      intro hb
      exact List.getElem_concat_length s.blocks nh s.blocks.length rfl hb
    constructor
    · refine ⟨by simp, ?_, ?_, ?_, ?_⟩
      · intro hz
        rw [hgetL 0 hlen (by simp)]
        exact hfirst hlen
      · intro i hi
        rw [hlen'] at hi
        by_cases hilt : i < s.blocks.length
        · rw [hgetL i hilt (by simp; omega)]
          exact hbn i hilt
        · have hieq : i = s.blocks.length := by omega
          subst hieq
          rw [hgetR (by simp), hnh]
          simp
          omega
      · intro i hi hz
        rw [hlen'] at hi
        rw [hgetL 0 hlen (by simp)]
        by_cases hilt : i < s.blocks.length
        · rw [hgetL i hilt (by simp; omega)]
          exact hname i hilt hlen
        · have hieq : i = s.blocks.length := by omega
          subst hieq
          rw [hgetR (by simp), hnh]
          have hnhName : nh.Name = vh.Name := rfl
          simp only []
          rw [hn]
          have := hname (s.blocks.length - 1) (by omega) hlen
          rw [hgetlast] at this
          exact this
      · intro i hi1 hi
        rw [hlen'] at hi1 hi
        by_cases hilt : i + 1 < s.blocks.length
        · rw [hgetL (i + 1) hilt (by simp; omega), hgetL i (by omega) (by simp; omega)]
          exact hoff i hilt (by omega)
        · have hieq : i + 1 = s.blocks.length := by omega
          have hgiBound : i + 1 < (s.blocks ++ [nh]).length := by simp; omega
          have hgi : (s.blocks ++ [nh])[i + 1] = nh := by
            exact List.getElem_concat_length s.blocks nh (i + 1) hieq hgiBound
          rw [hgi, hgetL i (by omega) (by simp; omega)]
          have hiv : i = s.blocks.length - 1 := by omega
          subst hiv
          rw [hgetlast, hnh]
    · rw [List.getLast?_concat]

theorem pfrInv_run (s : pfrState) (vs : List (Except RarError fileBlockHeader))
    (hs : pfrInv s) : pfrInv (pfrRun s vs) := by
  induction vs generalizing s with
  | nil => exact hs
  | cons v vs ih => exact ih (pfrStep s v) (pfrInv_step s v hs)

theorem pfrInv_init (h0 : fileBlockHeader) (s0 : pfrState)
    (hinit : pfrNextFileInit (.ok h0) = .ok s0)
    (hbn : h0.blocknum = 0) : pfrInv s0 := by
  unfold pfrNextFileInit at hinit
  by_cases hf : h0.first = false
  · simp [hf] at hinit
  · simp only [hf, if_false] at hinit
    injection hinit with hinit
    subst hinit
    refine ⟨⟨by simp, ?_, ?_, ?_, ?_⟩, rfl⟩
    · intro hz
      simpa using eq_true_of_ne_false hf
    · intro i hi
      simp only [List.length_singleton] at hi
      interval_cases i
      simpa using hbn
    · intro i hi hz
      simp only [List.length_singleton] at hi
      interval_cases i
      rfl
    · intro i hi1 hi
      simp only [List.length_singleton] at hi1
      omega

/-- C1: every file-block list created by `packedFileReader.nextFile` and
extended only by `packedFileReader.nextBlock` / `fileBlockList.addBlock`
satisfies, for every index `i`: `blocks[i].blocknum == i`,
`blocks[i].Name == blocks[0].Name`, `blocks[0].first = true`, and for
`i > 0`, `blocks[i].packedOff == blocks[i-1].packedOff +
blocks[i-1].PackedSize`.  The first block comes from the volume parser
with its `blocknum` field still at the Go zero value (hypothesis `hbn`);
the volume answers `vs` for the subsequent `nextBlock` calls are
arbitrary. -/
theorem c1_fileBlockList_invariants
    (h0 : fileBlockHeader) (s0 : pfrState)
    (hinit : pfrNextFileInit (.ok h0) = .ok s0)
    (hbn : h0.blocknum = 0)
    (vs : List (Except RarError fileBlockHeader)) :
    fblInvariant (pfrRun s0 vs).blocks :=
  (pfrInv_run s0 vs (pfrInv_init h0 s0 hinit hbn)).1

/-- Witness for C1 at a concrete two-block file: a fresh `first` header,
followed by one accepted continuation block. -/
theorem c1_fileBlockList_invariants_witness :
    pfrNextFileInit (.ok { Name := ['a'], first := true, PackedSize := 7 }) =
      .ok { h := { Name := ['a'], first := true, PackedSize := 7 },
            blocks := [{ Name := ['a'], first := true, PackedSize := 7 }] } ∧
    fblInvariant (pfrRun
      { h := { Name := ['a'], first := true, PackedSize := 7 },
        blocks := [{ Name := ['a'], first := true, PackedSize := 7 }] }
      [.ok { Name := ['a'], last := true, PackedSize := 3 }]).blocks :=
  ⟨rfl, c1_fileBlockList_invariants
    { Name := ['a'], first := true, PackedSize := 7 }
    { h := { Name := ['a'], first := true, PackedSize := 7 },
      blocks := [{ Name := ['a'], first := true, PackedSize := 7 }] }
    rfl rfl
    [.ok { Name := ['a'], last := true, PackedSize := 3 }]⟩

/-- C7: with the current block not `last`, an `io.EOF` from the volume
parser is translated to `UnexpectedArchiveEnd`, and a parsed block with
`first` set or a differing `Name` yields `InvalidFileBlock`; in both
cases the reader state (hence the file-block list) is unchanged, so the
offending block is never appended. -/
theorem c7_nextBlock_errors (s : pfrState) (hlast : s.h.last = false) :
    (pfrNextBlock s (.error .eof) = .error .unexpectedArcEnd ∧
      pfrStep s (.error .eof) = s) ∧
    (∀ vh : fileBlockHeader, vh.first = true ∨ vh.Name ≠ s.h.Name →
      pfrNextBlock s (.ok vh) = .error .invalidFileBlock ∧
      pfrStep s (.ok vh) = s) := by
  refine ⟨⟨?_, ?_⟩, ?_⟩
  · simp [pfrNextBlock, hlast]
  · simp [pfrStep, pfrNextBlock, hlast]
  · intro vh hvh
    exact ⟨by simp [pfrNextBlock, hlast, hvh],
           by simp [pfrStep, pfrNextBlock, hlast, hvh]⟩

/-- Witness for C7: concrete reader state on a non-`last` block, with a
continuation block whose name differs. -/
theorem c7_nextBlock_errors_witness :
    pfrNextBlock { h := { Name := ['a'] }, blocks := [{ Name := ['a'] }] }
        (.error .eof) = .error .unexpectedArcEnd ∧
    pfrNextBlock { h := { Name := ['a'] }, blocks := [{ Name := ['a'] }] }
        (.ok { Name := ['b'] }) = .error .invalidFileBlock :=
  ⟨((c7_nextBlock_errors
      { h := { Name := ['a'] }, blocks := [{ Name := ['a'] }] } rfl).1).1,
   ((c7_nextBlock_errors
      { h := { Name := ['a'] }, blocks := [{ Name := ['a'] }] } rfl).2
      { Name := ['b'] } (Or.inr (by decide))).1⟩

/-! ### RAR 5 block-header size validation (claim C2)

`archive50.readBlockHeader` is not under `src/`; only its unit tests
are.  The definitions below are therefore modelled from the spec (§4.3
and §8.6) and validated against the concrete byte sequences of those
tests. -/

/-- Modelled from the spec: the header-size limit of 1 MiB that
`archive50.readBlockHeader` enforces ("MUST reject `headerSize > 1
MiB`"). -/
def maxHeaderSize : Nat := 0x100000

/-- Modelled from the spec: the package's uvarint decoder (unsigned
LEB128, 7 data bits per byte, MSB continuation).  It consumes bytes up
to and including the first byte without the continuation bit; if the
buffer ends inside a varint it consumes everything and yields 0 (the
behaviour the repository's tests document for an all-continuation
buffer). -/
def uvarintAux : List Nat → Nat → Nat → Nat × List Nat
  | [], _, _ => (0, [])
  | b :: t, shft, acc =>
      if b < 0x80 then (acc + ((b % 0x80) <<< shft), t)
      else uvarintAux t (shft + 7) (acc + ((b % 0x80) <<< shft))

def uvarint (bs : List Nat) : Nat × List Nat := uvarintAux bs 0 0

/-- CRC32 (IEEE polynomial, reflected), one bit step. -/
def crc32Bit (c : Nat) : Nat :=
  if c % 2 = 1 then (c / 2) ^^^ 0xEDB88320 else c / 2

def crc32Bits : Nat → Nat → Nat
  | 0, c => c
  | n + 1, c => crc32Bits n (crc32Bit c)

def crc32Byte (c b : Nat) : Nat := crc32Bits 8 (c ^^^ (b % 256))

/-- CRC32 over a byte list. -/
def crc32 (bs : List Nat) : Nat := (bs.foldl crc32Byte 0xFFFFFFFF) ^^^ 0xFFFFFFFF

/-- Little-endian uint32 from the first four bytes. -/
def leUint32 (bs : List Nat) : Nat :=
  bs.getD 0 0 + bs.getD 1 0 * 0x100 + bs.getD 2 0 * 0x10000 +
    bs.getD 3 0 * 0x1000000

/-- Result of reading one RAR 5 block header (only the fields the
claims need). -/
structure blockHeader50 where
  htype : Nat := 0
  body : List Nat := []
  deriving DecidableEq, Repr

/-- Modelled from the spec: `archive50.readBlockHeader` (not under
`src/`; only its tests are).  Per spec §4.3 a RAR 5 block starts with a
uint32 CRC (little-endian) followed by a varint header size, both read
from a 7-byte buffer; after the varint the parser reads `headerSize`
bytes of header body in total.  It returns `CorruptBlockHeader` when
the decoded size is smaller than the bytes already remaining in the
7-byte buffer, or larger than 1 MiB, and `BadHeaderCRC` when the CRC32
over the header body does not match; the concrete behaviour agrees
with every input of the repository's `TestReadBlockHeader_*` tests. -/
def readBlockHeader50 (input : List Nat) : Except RarError blockHeader50 :=
  if input.length < 7 then .error .eof
  else
    let sb := input.take 7
    let rest := input.drop 7
    let crc := leUint32 (sb.take 4)
    let p := uvarint (sb.drop 4)
    if p.1 < p.2.length then .error .corruptBlockHeader
    else if p.1 > maxHeaderSize then .error .corruptBlockHeader
    else
      let need := p.1 - p.2.length
      if rest.length < need then .error .eof
      else
        let body := p.2 ++ rest.take need
        if crc32 body ≠ crc then .error .badHeaderCRC
        else .ok { htype := body.headI, body := body }

theorem uvarintAux_rem_length (l : List Nat) :
    ∀ shft acc, (uvarintAux l shft acc).2.length ≤ l.length := by
  induction l with
  | nil => intro shft acc; simp [uvarintAux]
  | cons b t ih =>
      intro shft acc
      unfold uvarintAux
      by_cases hb : b < 0x80
      · simp [hb]
      · simp only [hb, if_false]
        calc (uvarintAux t (shft + 7) (acc + ((b % 0x80) <<< shft))).2.length
            ≤ t.length := ih _ _
          _ ≤ (b :: t).length := by simp

/-- C2: for every input byte stream, the RAR 5 block-header reader
returns `CorruptBlockHeader` when the header size decoded from the
varint after the 4-byte CRC is smaller than the bytes already remaining
in the 7-byte size buffer, and when the size exceeds 1 MiB; whenever
the validation passes, the buffer allocation length `3 + size - len(b)`
(the expression the repository's tests describe) is at least 3, so no
negative-length allocation or out-of-range slice can occur. -/
theorem c2_readBlockHeader_size_validation (input : List Nat)
    (h7 : 7 ≤ input.length) :
    ((uvarint ((input.take 7).drop 4)).1 <
        (uvarint ((input.take 7).drop 4)).2.length →
      readBlockHeader50 input = .error .corruptBlockHeader) ∧
    (maxHeaderSize < (uvarint ((input.take 7).drop 4)).1 →
      readBlockHeader50 input = .error .corruptBlockHeader) ∧
    ((uvarint ((input.take 7).drop 4)).2.length ≤
        (uvarint ((input.take 7).drop 4)).1 →
      (3 : Int) ≤ 3 + ((uvarint ((input.take 7).drop 4)).1 : Int) -
        ((uvarint ((input.take 7).drop 4)).2.length : Int)) := by
  have hn7 : ¬ input.length < 7 := by omega
  refine ⟨?_, ?_, ?_⟩
  · intro hlt
    unfold readBlockHeader50
    simp only [hn7, if_false, hlt, if_true]
  · intro hbig
    have hlen3 : (uvarint ((input.take 7).drop 4)).2.length ≤ 3 := by
      have hb := uvarintAux_rem_length ((input.take 7).drop 4) 0 0
      have hl : ((input.take 7).drop 4).length = 3 := by
        rw [List.length_drop, List.length_take]
        omega
      unfold uvarint
      omega
    have hnlt : ¬ (uvarint ((input.take 7).drop 4)).1 <
        (uvarint ((input.take 7).drop 4)).2.length := by
      unfold maxHeaderSize at hbig
      omega
    unfold readBlockHeader50
    simp only [hn7, if_false, hnlt, hbig, if_true]
  · intro hge
    omega

/-- Witness for C2: the two malformed headers from the repository's
tests — a varint size of 1 with 2 bytes left in the size buffer, and a
varint size of 1500000 (> 1 MiB). -/
theorem c2_readBlockHeader_size_validation_witness :
    (7 : Nat) ≤ ([0x78, 0x56, 0x34, 0x12, 0x01, 0x00, 0x00] : List Nat).length ∧
    readBlockHeader50 [0x78, 0x56, 0x34, 0x12, 0x01, 0x00, 0x00] =
      .error .corruptBlockHeader ∧
    readBlockHeader50 [0x78, 0x56, 0x34, 0x12, 0xA0, 0xC6, 0x5B] =
      .error .corruptBlockHeader :=
  ⟨by decide,
   (c2_readBlockHeader_size_validation
      [0x78, 0x56, 0x34, 0x12, 0x01, 0x00, 0x00] (by decide)).1 (by decide),
   (c2_readBlockHeader_size_validation
      [0x78, 0x56, 0x34, 0x12, 0xA0, 0xC6, 0x5B] (by decide)).2.1 (by decide)⟩

/-! ### Signature scan (claim C3)

`bufVolumeReader.Reset` / `findSig` is not under `src/`; only its unit
tests are.  The scan is modelled from spec §4.1: a progressive, bounded
search over at most `maxSfxSize` bytes for the RAR 5 signature
`"Rar!\x1A\x07\x01\x00"` or the legacy signature `"Rar!\x1A\x07\x00"`. -/

/-- The signature search window (spec §4.1: 1 MiB). -/
def maxSfxSize : Nat := 0x100000

/-- The RAR 5.0 signature bytes (8 bytes). -/
def rar5Sig : List Nat := [0x52, 0x61, 0x72, 0x21, 0x1A, 0x07, 0x01, 0x00]

/-- The legacy RAR 1.5 signature bytes (7 bytes). -/
def rar15Sig : List Nat := [0x52, 0x61, 0x72, 0x21, 0x1A, 0x07, 0x00]

/-- `matchBytes pat l` is true when `pat` occurs at the start of `l`. -/
def matchBytes : List Nat → List Nat → Bool
  | [], _ => true
  | _ :: _, [] => false
  | a :: as, b :: bs => a = b && matchBytes as bs

/-- Which signature (if any) starts at the head of `l`: `some 2` for
RAR 5, `some 1` for legacy (spec §4.1 version numbering). -/
def sigVerAt (l : List Nat) : Option Nat :=
  if matchBytes rar5Sig l then some 2
  else if matchBytes rar15Sig l then some 1
  else none

/-- Modelled from the spec: the progressive signature scan.  `budget`
is the number of remaining start positions to try; the scan stops with
`NoSignature` when the input or the budget is exhausted. -/
def findSigAux : Nat → List Nat → Except RarError Nat
  | 0, l => (sigVerAt l).elim (.error .noSig) .ok
  | _ + 1, [] => (sigVerAt []).elim (.error .noSig) .ok
  | b + 1, x :: t => (sigVerAt (x :: t)).elim (findSigAux b t) .ok

/-- Start positions tried by the scan: with an 8-byte signature, a scan
that reads at most `maxSfxSize` bytes can try starts `0 .. maxSfxSize - 8`. -/
def sigScanBudget : Nat := maxSfxSize - 8

/-- Modelled from the spec: `bufVolumeReader.Reset`'s signature search
(not under `src/`; only its tests are).  It scans at most the first
`maxSfxSize` bytes and fails with `NoSignature` when no signature is
found in that window. -/
def findSig (input : List Nat) : Except RarError Nat :=
  findSigAux sigScanBudget input

theorem matchBytes_take (pat : List Nat) :
    ∀ (l : List Nat) (n : Nat), pat.length ≤ n →
      matchBytes pat (l.take n) = matchBytes pat l := by
  induction pat with
  | nil => intro l n hn; simp [matchBytes]
  | cons a as ih =>
      intro l n hn
      match l, n with
      | [], _ => simp
      | b :: bs, 0 => simp at hn
      | b :: bs, m + 1 =>
          simp only [List.take_succ_cons, matchBytes]
          rw [ih bs m (by simpa using hn)]

theorem sigVerAt_take (l : List Nat) (n : Nat) (hn : 8 ≤ n) :
    sigVerAt (l.take n) = sigVerAt l := by
  unfold sigVerAt
  rw [matchBytes_take rar5Sig l n (by simp [rar5Sig]; omega),
      matchBytes_take rar15Sig l n (by simp [rar15Sig]; omega)]

theorem findSigAux_noSig :
    ∀ (b : Nat) (l : List Nat),
      (∀ p, p ≤ b → sigVerAt (l.drop p) = none) →
      findSigAux b l = .error .noSig := by
  intro b
  induction b with
  | zero =>
      intro l hp
      have h0 : sigVerAt l = none := by simpa using hp 0 (le_refl 0)
      simp [findSigAux, h0]
  | succ b ih =>
      intro l hp
      have h0 : sigVerAt l = none := by simpa using hp 0 (by omega)
      match l with
      | [] => simp [findSigAux, h0]
      | x :: t =>
          simp only [findSigAux, h0, Option.elim_none]
          exact ih t (fun p hpb => by
            have := hp (p + 1) (by omega)
            simpa using this)

theorem findSigAux_take :
    ∀ (b : Nat) (l : List Nat),
      findSigAux b l = findSigAux b (l.take (b + 8)) := by
  intro b
  induction b with
  | zero =>
      intro l
      simp only [findSigAux]
      rw [sigVerAt_take l (0 + 8) (by omega)]
  | succ b ih =>
      intro l
      match l with
      | [] => simp
      | x :: t =>
          have ht : (x :: t).take (b + 1 + 8) = x :: t.take (b + 8) := by
            rw [show b + 1 + 8 = (b + 8) + 1 by omega, List.take_succ_cons]
          rw [ht]
          simp only [findSigAux]
          have hs : sigVerAt (x :: t.take (b + 8)) = sigVerAt (x :: t) := by
            have h2 := sigVerAt_take (x :: t) (b + 1 + 8) (by omega)
            rw [ht] at h2
            exact h2
          rw [hs, ← ih t]

/-- C3: for every input stream with no RAR signature in its first
`maxSfxSize` bytes, the signature scan returns `NoSignature`, and its
result is already determined by the first `maxSfxSize` bytes of the
input (so the scan examines at most `maxSfxSize` bytes and terminates
on every input, including arbitrary non-RAR data and streams ending
mid-signature). -/
theorem c3_signature_scan_bounded (input : List Nat)
    (hno : ∀ p, p ≤ sigScanBudget → sigVerAt (input.drop p) = none) :
    findSig input = .error .noSig ∧
    findSig input = findSig (input.take maxSfxSize) := by
  constructor
  · exact findSigAux_noSig sigScanBudget input hno
  · unfold findSig
    rw [findSigAux_take sigScanBudget input,
        findSigAux_take sigScanBudget (input.take maxSfxSize)]
    rw [List.take_take]
    have : min (sigScanBudget + 8) maxSfxSize = sigScanBudget + 8 := by
      unfold sigScanBudget maxSfxSize
      omega
    rw [this]

/-- Witness for C3 on the empty input (one of the repository's
`TestFindSig_NonRARFile` cases): no signature anywhere, scan yields
`NoSignature`. -/
theorem c3_signature_scan_bounded_witness :
    (∀ p, p ≤ sigScanBudget → sigVerAt (([] : List Nat).drop p) = none) ∧
    findSig [] = .error .noSig :=
  ⟨fun p _ => by rw [List.drop_nil]; decide,
   (c3_signature_scan_bounded []
      (fun p _ => by rw [List.drop_nil]; decide)).1⟩

/-! ### The decode stack (claims C4, C5, C6)

`newArchiveFileFrom` (reader.go:317-352) composes the per-file reader
stack; `limitedReader` (reader.go:454-492) and `checksumReader`
(reader.go:524-591) are the layers the claims are about.  The packed
source underneath a layer is abstracted as a pure byte stream followed
by a terminal error (`io.EOF` for a normally ending file).  The
`hash.Hash` interface and `crypto/hmac` are external to the package, so
digests are supplied as opaque functions in a `HashModel`. -/

/-- Opaque digest functions: `digest` is the `hash.Hash` sum over all
bytes written so far, `hmacSha256` the `crypto/hmac` SHA-256 MAC. -/
structure HashModel where
  digest : List Nat → List Nat
  hmacSha256 : List Nat → List Nat → List Nat

/-- The CRC32 folding of `checksumReader.eofError` (reader.go:542-547):
`for i, v := range sum[4:] { sum[i&3] ^= v }` followed by `sum[:4]`. -/
def crcFoldAux : List Nat → Nat → List Nat → List Nat
  | acc, _, [] => acc
  | acc, i, v :: t => crcFoldAux (acc.set (i % 4) ((acc.getD (i % 4) 0) ^^^ v)) (i + 1) t

def crcFold (sum : List Nat) : List Nat := (crcFoldAux sum 0 (sum.drop 4)).take 4

/-- The digest compared against `h.sum` in `checksumReader.eofError`
(reader.go:531-559): the plain digest, or — when `hashKey` is present —
its HMAC-SHA-256, folded down to 4 bytes when the stored sum is a
CRC32. -/
def finalDigest (hm : HashModel) (h : fileBlockHeader) (written : List Nat) :
    List Nat :=
  let s := hm.digest written
  if h.hashKey ≠ [] then
    let mac := hm.hmacSha256 h.hashKey s
    if h.sum.length = 4 then crcFold mac else mac
  else s

/-- `fileBlockList.removeFileHash` (reader.go:188-194): replace the
first block by a copy without the hash. -/
def removeFileHash : List fileBlockHeader → List fileBlockHeader
  | [] => []
  | h :: t => { h with hash := none } :: t

/-- `fileBlockList.hasFileHash` (reader.go:182-186). -/
def hasFileHash (fl : List fileBlockHeader) : Bool :=
  match fl with
  | [] => false
  | h :: _ => h.hash.isSome

/-- One reader of the decode stack, as composed by `newArchiveFileFrom`
(spec §9 models the stack as exactly such a tagged variant):
* `base pending endErr` — the packed source: delivers `pending`, then
  fails every read with `endErr` (`io.EOF` for a normal end);
* `errorF e inner` — `errorFile` (reader.go:131-137): every read fails
  with `e`, the wrapped reader is never consulted;
* `aesF`/`decodeF` — the decryption and decompression layers.  Their
  transforms live outside the package (spec §1 treats the decompressor
  as an opaque sub-module); they are modelled as error-preserving
  pass-through layers, which is all the claims exercise (beneath them
  the claims place either a `base` or an always-failing `errorF`);
* `limitedF size offset inner` — `limitedReader` (reader.go:454-492);
* `checksumF written eofErr inner` — `checksumReader`
  (reader.go:524-591), with the bytes hashed so far and the cached
  terminal error. -/
inductive AFile where
  | base (pending : List Nat) (endErr : RarError)
  | errorF (e : RarError) (inner : AFile)
  | aesF (inner : AFile)
  | decodeF (inner : AFile)
  | limitedF (size offset : Int) (inner : AFile)
  | checksumF (written : List Nat) (eofErr : Option RarError) (inner : AFile)
  deriving DecidableEq, Repr

/-- `ReadByte` on the stack.  `hm` supplies the digest functions, `h`
is the current file header (`cr.currFile()`), and `fl` the file-block
list (mutated by the success callback `blocks.removeFileHash`).  Each
Go layer's `ReadByte` is translated clause by clause. -/
def readByte (hm : HashModel) (h : fileBlockHeader) :
    AFile → List fileBlockHeader →
    (Except RarError Nat) × AFile × List fileBlockHeader
  | .base pending e, fl =>
      match pending with
      | [] => (.error e, .base [] e, fl)
      | b :: t => (.ok b, .base t e, fl)
  | .errorF e inner, fl => (.error e, .errorF e inner, fl)
  | .aesF inner, fl =>
      match readByte hm h inner fl with
      | (r, inner', fl') => (r, .aesF inner', fl')
  | .decodeF inner, fl =>
      match readByte hm h inner fl with
      | (r, inner', fl') => (r, .decodeF inner', fl')
  | .limitedF size offset inner, fl =>
      if size ≤ offset then (.error .eof, .limitedF size offset inner, fl)
      else
        match readByte hm h inner fl with
        | (.error .eof, inner', fl') =>
            (.error .shortFile, .limitedF size offset inner', fl')
        | (.error e, inner', fl') =>
            (.error e, .limitedF size offset inner', fl')
        | (.ok b, inner', fl') =>
            (.ok b, .limitedF size (offset + 1) inner', fl')
  | .checksumF written eErr inner, fl =>
      match readByte hm h inner fl with
      | (.ok b, inner', fl') =>
          (.ok b, .checksumF (written ++ [b]) eErr inner', fl')
      | (.error .eof, inner', fl') =>
          (match eErr with
           | some e => (.error e, .checksumF written eErr inner', fl')
           | none =>
              if finalDigest hm h written = h.sum then
                (.error .eof, .checksumF written (some .eof) inner',
                  removeFileHash fl')
              else
                (.error .badFileChecksum,
                  .checksumF written (some .badFileChecksum) inner', fl'))
      | (.error e, inner', fl') =>
          (.error e, .checksumF written eErr inner', fl')

/-- Drive `ReadByte` until the first error, collecting the delivered
bytes; `fuel` bounds the number of reads, `none` as the returned error
means the fuel ran out before a read failed. -/
def readAll (hm : HashModel) (h : fileBlockHeader) :
    Nat → AFile → List fileBlockHeader →
    List Nat × Option RarError × AFile × List fileBlockHeader
  | 0, f, fl => ([], none, f, fl)
  | n + 1, f, fl =>
      match readByte hm h f fl with
      | (.error e, f', fl') => ([], some e, f', fl')
      | (.ok b, f', fl') =>
          match readAll hm h n f' fl' with
          | (bs, e, f'', fl'') => (b :: bs, e, f'', fl'')

/-- The options record (options.go is not under `src/`; only the
`skipCheck` toggle matters to the claims). -/
structure Options where
  skipCheck : Bool := false
  deriving DecidableEq, Repr

/-- `fileBlockList.firstBlock` (reader.go:144-148). -/
def firstBlock (blocks : List fileBlockHeader) : fileBlockHeader :=
  blocks.headI

/-- `packedFileReader.newArchiveFileFrom` (reader.go:317-352): compose
decryption (or the `ArchivedFileEncrypted` error reader when no key was
derived), decompression, the length limiter, and the checksum verifier
on top of the packed source `r0`.  `supported` abstracts the decoder
versions accepted by `decodeReader.init` (the decoder sub-module is not
under `src/`; spec §4.6 says opening fails fast when the compression
version is unsupported). -/
def newArchiveFileFrom (supported : Nat → Bool) (opt : Options)
    (blocks : List fileBlockHeader) (r0 : AFile) : Except RarError AFile :=
  let h := firstBlock blocks
  let r1 := if h.Encrypted then
              (if h.key = none then AFile.errorF .archivedFileEncrypted r0
               else AFile.aesF r0)
            else r0
  if h.decVer > 0 ∧ supported h.decVer = false then .error .unknownVersion
  else
    let r2 := if h.decVer > 0 then AFile.decodeF r1 else r1
    let r3 := if h.UnPackedSize ≥ 0 ∧ h.UnKnownSize = false then
                AFile.limitedF h.UnPackedSize 0 r2
              else r2
    let r4 := if h.hash.isSome ∧ opt.skipCheck = false then
                AFile.checksumF [] none r3
              else r3
    .ok r4

theorem hasFileHash_removeFileHash (fl : List fileBlockHeader) (hfl : fl ≠ []) :
    hasFileHash (removeFileHash fl) = false := by
  match fl with
  | [] => exact absurd rfl hfl
  | h :: t => simp [removeFileHash, hasFileHash]

theorem checksum_readAll (hm : HashModel) (h : fileBlockHeader) :
    ∀ (pending written : List Nat) (fl : List fileBlockHeader),
      readAll hm h (pending.length + 1)
          (.checksumF written none (.base pending .eof)) fl =
        (pending,
         some (if finalDigest hm h (written ++ pending) = h.sum then RarError.eof
               else RarError.badFileChecksum),
         .checksumF (written ++ pending)
           (some (if finalDigest hm h (written ++ pending) = h.sum then RarError.eof
                  else RarError.badFileChecksum))
           (.base [] .eof),
         if finalDigest hm h (written ++ pending) = h.sum then removeFileHash fl
         else fl) := by
  intro pending
  induction pending with
  | nil =>
      intro written fl
      by_cases hd : finalDigest hm h written = h.sum
      · simp [readAll, readByte, hd]
      · simp [readAll, readByte, hd]
  | cons b t ih =>
      intro written fl
      have hstep : readByte hm h (.checksumF written none (.base (b :: t) .eof)) fl
          = (.ok b, .checksumF (written ++ [b]) none (.base t .eof), fl) := by
        simp [readByte]
      simp only [List.length_cons]
      rw [readAll, hstep]
      simp only []
      rw [ih (written ++ [b]) fl]
      simp [List.append_assoc]

/-- C4: with the checksum verifier on the stack, every byte delivered
before end-of-stream passes through unchanged; the read that observes
end-of-stream returns `BadFileChecksum` when the computed digest
differs from the stored sum, and on a match returns `io.EOF` and runs
the callback that removes the hash from the file-block list, after
which `hasFileHash()` is false. -/
theorem c4_checksum_verifier (hm : HashModel) (h : fileBlockHeader)
    (pending : List Nat) (fl : List fileBlockHeader) (hfl : fl ≠ []) :
    (finalDigest hm h pending = h.sum →
      readAll hm h (pending.length + 1)
          (.checksumF [] none (.base pending .eof)) fl =
        (pending, some .eof,
         .checksumF pending (some .eof) (.base [] .eof),
         removeFileHash fl) ∧
      hasFileHash (removeFileHash fl) = false) ∧
    (finalDigest hm h pending ≠ h.sum →
      readAll hm h (pending.length + 1)
          (.checksumF [] none (.base pending .eof)) fl =
        (pending, some .badFileChecksum,
         .checksumF pending (some .badFileChecksum) (.base [] .eof), fl)) := by
  have key := checksum_readAll hm h pending [] fl
  simp only [List.nil_append] at key
  constructor
  · intro hsum
    rw [key]
    simp [hsum, hasFileHash_removeFileHash fl hfl]
  · intro hsum
    rw [key]
    simp [hsum]

/-- Witness for C4: identity digest over the two-byte stream `[1, 2]`;
the stored sum matches, so the terminal read is `io.EOF` and the hash
is removed from the single-block list. -/
theorem c4_checksum_verifier_witness :
    ([{ hash := some () }] : List fileBlockHeader) ≠ [] ∧
    finalDigest ⟨fun l => l, fun _ _ => []⟩ { sum := [1, 2] } [1, 2] =
      ({ sum := [1, 2] } : fileBlockHeader).sum ∧
    readAll ⟨fun l => l, fun _ _ => []⟩ { sum := [1, 2] } 3
        (.checksumF [] none (.base [1, 2] .eof)) [{ hash := some () }] =
      ([1, 2], some .eof, .checksumF [1, 2] (some .eof) (.base [] .eof),
       [{ hash := none }]) ∧
    hasFileHash [{ hash := none }] = false :=
  ⟨by simp, by decide,
   by
    have := ((c4_checksum_verifier ⟨fun l => l, fun _ _ => []⟩ { sum := [1, 2] }
      [1, 2] [{ hash := some () }] (by simp)).1 (by decide)).1
    simpa [removeFileHash] using this,
   ((c4_checksum_verifier ⟨fun l => l, fun _ _ => []⟩ { sum := [1, 2] }
      [1, 2] [{ hash := some () }] (by simp)).1 (by decide)).2⟩

/-- Stacks whose every read fails with `ArchivedFileEncrypted` and
whose state is unchanged by the failing read: the `errorFile`
substitute possibly wrapped in pass-through and not-yet-exhausted
limiter / checksum layers. -/
inductive PropagatesAFE : AFile → Prop
  | errF : ∀ r0, PropagatesAFE (.errorF .archivedFileEncrypted r0)
  | aes : ∀ f, PropagatesAFE f → PropagatesAFE (.aesF f)
  | dec : ∀ f, PropagatesAFE f → PropagatesAFE (.decodeF f)
  | lim : ∀ size offset f, offset < size → PropagatesAFE f →
      PropagatesAFE (.limitedF size offset f)
  | cks : ∀ w e f, PropagatesAFE f → PropagatesAFE (.checksumF w e f)

theorem readByte_propagatesAFE (hm : HashModel) (hcur : fileBlockHeader)
    (f : AFile) (hf : PropagatesAFE f) (fl : List fileBlockHeader) :
    readByte hm hcur f fl = (.error .archivedFileEncrypted, f, fl) := by
  induction hf with
  | errF r0 => rfl
  | aes f _ ih => simp [readByte, ih]
  | dec f _ ih => simp [readByte, ih]
  | lim size offset f hlt _ ih =>
      have hns : ¬ size ≤ offset := by omega
      simp [readByte, hns, ih]
  | cks w e f _ ih => simp [readByte, ih]

/-- C5 counterexample: the claim as stated fails for an encrypted file
with no derived key whose declared unpacked size is `0`.  Opening via
`newArchiveFileFrom` yields a zero-size `limitedReader` above the error
reader, and its first `ReadByte` returns `io.EOF`, not
`ArchivedFileEncrypted`. -/
theorem c5_counterexample :
    newArchiveFileFrom (fun _ => true) {}
        [{ Encrypted := true, UnPackedSize := 0 }] (.base [0, 0] .eof) =
      .ok (.limitedF 0 0 (.errorF .archivedFileEncrypted (.base [0, 0] .eof))) ∧
    (readByte ⟨fun l => l, fun _ _ => []⟩ { Encrypted := true, UnPackedSize := 0 }
        (.limitedF 0 0 (.errorF .archivedFileEncrypted (.base [0, 0] .eof)))
        []).1 = .error .eof ∧
    RarError.eof ≠ RarError.archivedFileEncrypted := by
  refine ⟨rfl, rfl, by simp⟩

/-- C5 (amended): if a file's first block has `Encrypted` set and no
key, `newArchiveFileFrom` succeeds (given a supported compression
version) and — provided the declared unpacked size is not zero, the
amendment the counterexample forces — every subsequent `ReadByte`
returns no byte and the error `ArchivedFileEncrypted`, leaving the
reader state unchanged (hence every later read fails identically). -/
theorem c5_encrypted_no_key (supported : Nat → Bool) (opt : Options)
    (blocks : List fileBlockHeader) (r0 : AFile)
    (henc : (firstBlock blocks).Encrypted = true)
    (hkey : (firstBlock blocks).key = none)
    (hver : (firstBlock blocks).decVer = 0 ∨
            supported (firstBlock blocks).decVer = true)
    (hsz : (firstBlock blocks).UnPackedSize ≠ 0 ∨
           (firstBlock blocks).UnKnownSize = true) :
    ∃ f, newArchiveFileFrom supported opt blocks r0 = .ok f ∧
      ∀ (hm : HashModel) (hcur : fileBlockHeader) (fl : List fileBlockHeader),
        readByte hm hcur f fl = (.error .archivedFileEncrypted, f, fl) := by
  have hnover : ¬ ((firstBlock blocks).decVer > 0 ∧
      supported (firstBlock blocks).decVer = false) := by
    rcases hver with hv | hv <;> simp [hv]
  unfold newArchiveFileFrom
  simp only [henc, hkey, if_true, hnover, if_false]
  refine ⟨_, rfl, ?_⟩
  intro hm hcur fl
  apply readByte_propagatesAFE
  have hbase : PropagatesAFE
      (.errorF .archivedFileEncrypted r0 : AFile) := PropagatesAFE.errF r0
  have hdec : PropagatesAFE
      (if (firstBlock blocks).decVer > 0 then
        AFile.decodeF (.errorF .archivedFileEncrypted r0)
       else .errorF .archivedFileEncrypted r0) := by
    split
    · exact PropagatesAFE.dec _ hbase
    · exact hbase
  have hlim : PropagatesAFE
      (if (firstBlock blocks).UnPackedSize ≥ 0 ∧
          (firstBlock blocks).UnKnownSize = false then
        AFile.limitedF (firstBlock blocks).UnPackedSize 0
          (if (firstBlock blocks).decVer > 0 then
            AFile.decodeF (.errorF .archivedFileEncrypted r0)
           else .errorF .archivedFileEncrypted r0)
       else
        (if (firstBlock blocks).decVer > 0 then
          AFile.decodeF (.errorF .archivedFileEncrypted r0)
         else .errorF .archivedFileEncrypted r0)) := by
    split
    · rename_i hcond
      refine PropagatesAFE.lim _ _ _ ?_ hdec
      rcases hsz with hs | hs
      · omega
      · rw [hcond.2] at hs
        exact absurd hs (by simp)
    · exact hdec
  split
  · exact PropagatesAFE.cks _ _ _ hlim
  · exact hlim

/-- Witness for C5 (amended) at a concrete encrypted stored file of
unpacked size 4 with no key: opening succeeds and the first read fails
with `ArchivedFileEncrypted`. -/
theorem c5_encrypted_no_key_witness :
    ({ Encrypted := true, UnPackedSize := 4 } : fileBlockHeader).Encrypted = true ∧
    ∃ f, newArchiveFileFrom (fun _ => true) {}
        [{ Encrypted := true, UnPackedSize := 4 }] (.base [9, 9] .eof) = .ok f ∧
      ∀ (hm : HashModel) (hcur : fileBlockHeader) (fl : List fileBlockHeader),
        readByte hm hcur f fl = (.error .archivedFileEncrypted, f, fl) :=
  ⟨rfl,
   c5_encrypted_no_key (fun _ => true) {}
     [{ Encrypted := true, UnPackedSize := 4 }] (.base [9, 9] .eof)
     rfl rfl (Or.inl rfl) (Or.inl (by decide))⟩

theorem limited_readAll_short (hm : HashModel) (hcur : fileBlockHeader) :
    ∀ (pending : List Nat) (size offset : Int) (fl : List fileBlockHeader),
      offset ≤ size → (pending.length : Int) < size - offset →
      readAll hm hcur (pending.length + 1)
          (.limitedF size offset (.base pending .eof)) fl =
        (pending, some .shortFile,
         .limitedF size (offset + pending.length) (.base [] .eof), fl) := by
  intro pending
  induction pending with
  | nil =>
      intro size offset fl hle hlt
      have hns : ¬ size ≤ offset := by simp at hlt; omega
      simp [readAll, readByte, hns]
  | cons b t ih =>
      intro size offset fl hle hlt
      have hns : ¬ size ≤ offset := by
        simp only [List.length_cons] at hlt
        push_cast at hlt
        omega
      have hstep : readByte hm hcur
          (.limitedF size offset (.base (b :: t) .eof)) fl =
          (.ok b, .limitedF size (offset + 1) (.base t .eof), fl) := by
        simp [readByte, hns]
      simp only [List.length_cons] at hlt ⊢
      push_cast at hlt
      rw [readAll, hstep]
      simp only []
      rw [ih size (offset + 1) fl (by omega) (by omega)]
      simp only [Prod.mk.injEq]
      refine ⟨trivial, trivial, ?_, trivial⟩
      congr 1
      push_cast
      ring

theorem limited_readAll_exact (hm : HashModel) (hcur : fileBlockHeader) :
    ∀ (n : Nat) (pending : List Nat) (size offset : Int)
      (fl : List fileBlockHeader),
      size - offset = (n : Int) → n ≤ pending.length →
      readAll hm hcur (n + 1)
          (.limitedF size offset (.base pending .eof)) fl =
        (pending.take n, some .eof,
         .limitedF size size (.base (pending.drop n) .eof), fl) := by
  intro n
  induction n with
  | zero =>
      intro pending size offset fl hsz hn
      have heq : size = offset := by omega
      subst heq
      simp [readAll, readByte]
  | succ n ih =>
      intro pending size offset fl hsz hn
      have hns : ¬ size ≤ offset := by push_cast at hsz; omega
      match pending with
      | [] => simp at hn
      | b :: t =>
          have hstep : readByte hm hcur
              (.limitedF size offset (.base (b :: t) .eof)) fl =
              (.ok b, .limitedF size (offset + 1) (.base t .eof), fl) := by
            simp [readByte, hns]
          rw [readAll, hstep]
          simp only []
          rw [ih t size (offset + 1) fl (by push_cast at hsz ⊢; omega)
            (by simpa using hn)]
          simp

/-- C6: when `UnPackedSize ≥ 0` and `UnKnownSize` is false,
`newArchiveFileFrom` wraps the stream in the length limiter; a full
read of the limited stream delivers exactly `UnPackedSize` bytes when
the underlying stream has at least that many (any padding beyond the
limit is left unread in the source), and if the underlying stream
reaches EOF first, the read that crosses the end returns `ShortFile`
instead of a clean EOF.  (Stated for a stored, unencrypted, unhashed
file so that the limiter is the whole stack.) -/
theorem c6_length_limiter (supported : Nat → Bool) (opt : Options)
    (hm : HashModel) (hcur h : fileBlockHeader) (rest : List fileBlockHeader)
    (pending : List Nat) (fl : List fileBlockHeader)
    (hsz : h.UnPackedSize ≥ 0) (hks : h.UnKnownSize = false)
    (henc : h.Encrypted = false) (hver : h.decVer = 0)
    (hhash : h.hash = none) :
    newArchiveFileFrom supported opt (h :: rest) (.base pending .eof) =
      .ok (.limitedF h.UnPackedSize 0 (.base pending .eof)) ∧
    ((pending.length : Int) < h.UnPackedSize →
      readAll hm hcur (pending.length + 1)
          (.limitedF h.UnPackedSize 0 (.base pending .eof)) fl =
        (pending, some .shortFile,
         .limitedF h.UnPackedSize (pending.length : Int) (.base [] .eof), fl)) ∧
    (h.UnPackedSize ≤ (pending.length : Int) →
      readAll hm hcur (h.UnPackedSize.toNat + 1)
          (.limitedF h.UnPackedSize 0 (.base pending .eof)) fl =
        (pending.take h.UnPackedSize.toNat, some .eof,
         .limitedF h.UnPackedSize h.UnPackedSize
           (.base (pending.drop h.UnPackedSize.toNat) .eof), fl)) := by
  refine ⟨?_, ?_, ?_⟩
  · unfold newArchiveFileFrom firstBlock
    simp [henc, hver, hks, hhash, hsz]
  · intro hlt
    have key := limited_readAll_short hm hcur pending h.UnPackedSize 0 fl
      (by omega) (by omega)
    simpa using key
  · intro hge
    have key := limited_readAll_exact hm hcur h.UnPackedSize.toNat pending
      h.UnPackedSize 0 fl (by omega) (by omega)
    simpa using key

/-- Witness for C6: a stored file of declared size 2 over a 3-byte
source (padding dropped), and one of declared size 5 over a 1-byte
source (`ShortFile`). -/
theorem c6_length_limiter_witness :
    (({ UnPackedSize := 2 } : fileBlockHeader).UnPackedSize ≥ 0) ∧
    readAll ⟨fun l => l, fun _ _ => []⟩ {} 3
        (.limitedF 2 0 (.base [5, 6, 7] .eof)) [] =
      ([5, 6], some .eof, .limitedF 2 2 (.base [7] .eof), []) ∧
    readAll ⟨fun l => l, fun _ _ => []⟩ {} 2
        (.limitedF 5 0 (.base [9] .eof)) [] =
      ([9], some .shortFile, .limitedF 5 1 (.base [] .eof), []) :=
  ⟨by decide,
   by
    have := (c6_length_limiter (fun _ => true) {} ⟨fun l => l, fun _ _ => []⟩
      {} { UnPackedSize := 2 } [] [5, 6, 7] [] (by decide) rfl rfl rfl
      rfl).2.2 (by decide)
    simpa using this,
   by
    have := (c6_length_limiter (fun _ => true) {} ⟨fun l => l, fun _ _ => []⟩
      {} { UnPackedSize := 5 } [] [9] [] (by decide) rfl rfl rfl rfl).2.1
      (by decide)
    simpa using this⟩

/-! ### `Reader.ReadHeaders` (claim C10) -/

/-- `Reader` (reader.go:594-596): the sequential archive reader over a
composed archive file.  (The `FileHeader` struct is the metadata part
of `fileBlockHeader`, which stands in for it here.) -/
structure Reader where
  f : AFile

/-- `Reader.ReadHeaders` (reader.go:621-630): declares an empty (nil)
header slice and returns it together with a fresh error, for every
receiver — it never enumerates headers. -/
def readerReadHeaders (_ : Reader) :
    Option (List fileBlockHeader) × Option (List Char) :=
  (none,
   some ("rardecode: ReadHeaders not supported on Reader, use OpenReader for multivolume archives".toList))

/-- C10: for every `Reader`, `ReadHeaders` returns a nil header slice
together with a non-nil error; it never enumerates headers (the
enumerating variants live on `ReadCloser` and the standalone
functions). -/
theorem c10_reader_readHeaders_always_errors (r : Reader) :
    (readerReadHeaders r).1 = none ∧
    (readerReadHeaders r).2.isSome = true :=
  ⟨rfl, rfl⟩

/-! ### Filesystem view (claims C8, C9)

`OpenFS` (fs.go:373-414), `RarFS.Open` (fs.go:140-160) and `RarFS.Sub`
(fs.go:239-266).  Go strings are `List Char`; the `ftree` map is an
association list whose keys are unique (Go map semantics), with nodes'
`files` children identified by their tree keys (in Go they are pointers,
and every created node is stored in the map under its path). -/

/-- The `fs` path errors relevant here (`fs.ErrInvalid`,
`fs.ErrNotExist`); the `PathError{op, path, err}` envelope only adds
the operation and argument, so the bare error value is modelled. -/
inductive FsErr where
  | invalid
  | notExist
  deriving DecidableEq, Repr

def slashChar : Char := '/'

/-- The root path `"."`. -/
def dotPath : List Char := ['.']

def dotdotPath : List Char := ['.', '.']

/-- Split a path at `'/'` (Go `fs.ValidPath`'s element iteration). -/
def splitOnSlash : List Char → List (List Char)
  | [] => [[]]
  | c :: t =>
      if c = slashChar then [] :: splitOnSlash t
      else
        match splitOnSlash t with
        | [] => [[c]]
        | e :: es => (c :: e) :: es

/-- A path element accepted by `fs.ValidPath`: nonempty and neither
`"."` nor `".."`. -/
def goodElem (e : List Char) : Bool :=
  decide (e ≠ [] ∧ e ≠ dotPath ∧ e ≠ dotdotPath)

/-- `fs.ValidPath`: the literal `"."`, or slash-separated nonempty
elements none of which is `"."` or `".."` (UTF-8 validity always holds
for `List Char`). -/
def validPath (p : List Char) : Bool :=
  p = dotPath ∨ (splitOnSlash p).all goodElem

/-- `fsNode` (fs.go:83-87): name, optional file-block list, children. -/
structure fsNode where
  name : List Char := []
  blocks : Option (List fileBlockHeader) := none
  files : List (List Char) := []
  deriving DecidableEq, Repr

/-- `fsNode.isDir` (fs.go:89-91): `n.blocks == nil || n.blocks.isDir()`. -/
def nodeIsDir (n : fsNode) : Bool :=
  match n.blocks with
  | none => true
  | some bs => (firstBlock bs).IsDir

/-- The `ftree` map (fs.go:133), as an association list. -/
def Ftree := List (List Char × fsNode)

/-- Go map lookup `rfs.ftree[name]`. -/
def flookup : Ftree → List Char → Option fsNode
  | [], _ => none
  | (k, v) :: t, n => if k = n then some v else flookup t n

/-- Go map update of the node stored at `k` (in Go the node is mutated
through its pointer, the map still holds the same entry). -/
def updAt : Ftree → List Char → (fsNode → fsNode) → Ftree
  | [], _, _ => []
  | (kk, v) :: rest, k, f =>
      (kk, if kk = k then f v else v) :: updAt rest k f

/-- The replacement condition of `OpenFS` (fs.go:391):
`node.blocks == nil || node.firstBlock().Version < h.Version`. -/
def shouldReplace (node : fsNode) (h : fileBlockHeader) : Bool :=
  match node.blocks with
  | none => true
  | some bs => decide ((firstBlock bs).Version < h.Version)

/-- `path.Dir` on the already-clean slash-separated names `OpenFS`
uses: drop the last element, `"."` when nothing remains. -/
def joinSlash : List (List Char) → List Char
  | [] => []
  | [e] => e
  | e :: es => e ++ slashChar :: joinSlash es

def pathDir (p : List Char) : List Char :=
  match (splitOnSlash p).dropLast with
  | [] => dotPath
  | es => joinSlash es

/-- The parent-synthesis loop of `OpenFS` (fs.go:398-411): walk up the
directories, appending the child to the first existing ancestor and
synthesising missing ones.  `fuel` bounds the walk (each `path.Dir`
strictly shortens the name, so `child.length + 1` suffices). -/
def addParents : Nat → Ftree → List Char → Ftree
  | 0, t, _ => t
  | fuel + 1, t, child =>
      if child = dotPath then t
      else
        let dir := pathDir child
        match flookup t dir with
        | some _ => updAt t dir (fun n => { n with files := n.files ++ [child] })
        | none =>
            addParents fuel
              ((dir, { name := dir, blocks := none, files := [child] }) :: t) dir

/-- One iteration of the `OpenFS` loop body (fs.go:383-412) for the
entry with cleaned valid path `fname` and file-block list `blocks`:
on a collision, replace the node's list when `shouldReplace`; otherwise
insert a fresh file node and synthesise its ancestors. -/
def openFSAdd (t : Ftree) (fname : List Char)
    (blocks : List fileBlockHeader) : Ftree :=
  (flookup t fname).elim
    (addParents (fname.length + 1)
      ((fname, { name := [], blocks := some blocks, files := [] }) :: t)
      fname)
    (fun node =>
      if shouldReplace node (firstBlock blocks) then
        updAt t fname (fun n => { n with blocks := some blocks })
      else t)

theorem flookup_updAt (t : Ftree) (k : List Char) (f : fsNode → fsNode) :
    flookup (updAt t k f) k = (flookup t k).map f := by
  induction t with
  | nil => rfl
  | cons kv rest ih =>
      obtain ⟨kk, v⟩ := kv
      by_cases hk : kk = k
      · subst hk
        simp [updAt, flookup]
      · simp [updAt, flookup, hk, ih]

/-- C8: in `OpenFS`, when a new file-block list maps to a path already
in the tree, the new list replaces the old exactly when the existing
entry has no blocks (a synthesized directory) or its first block's
`Version` is strictly smaller than the new block's; on an equal or
smaller new `Version` the new list is discarded, so the entry kept is
the one with the strictly greater `Version`. -/
theorem c8_openFS_version_collision (t : Ftree) (fname : List Char)
    (blocks : List fileBlockHeader) (node : fsNode)
    (hlk : flookup t fname = some node) :
    (node.blocks = none →
      flookup (openFSAdd t fname blocks) fname =
        some { node with blocks := some blocks }) ∧
    (∀ bsOld, node.blocks = some bsOld →
      ((firstBlock bsOld).Version < (firstBlock blocks).Version →
        flookup (openFSAdd t fname blocks) fname =
          some { node with blocks := some blocks }) ∧
      (¬ (firstBlock bsOld).Version < (firstBlock blocks).Version →
        flookup (openFSAdd t fname blocks) fname = some node)) := by
  constructor
  · intro hnone
    unfold openFSAdd
    rw [hlk]
    simp only [Option.elim_some]
    have hrep : shouldReplace node (firstBlock blocks) = true := by
      unfold shouldReplace
      rw [hnone]
    rw [if_pos hrep, flookup_updAt, hlk]
    rfl
  · intro bsOld hsome
    constructor
    · intro hlt
      unfold openFSAdd
      rw [hlk]
      simp only [Option.elim_some]
      have hrep : shouldReplace node (firstBlock blocks) = true := by
        unfold shouldReplace
        rw [hsome]
        simpa using hlt
      rw [if_pos hrep, flookup_updAt, hlk]
      rfl
    · intro hnlt
      unfold openFSAdd
      rw [hlk]
      simp only [Option.elim_some]
      have hrep : shouldReplace node (firstBlock blocks) = false := by
        unfold shouldReplace
        rw [hsome]
        simpa using hnlt
      rw [if_neg (by simp [hrep])]
      exact hlk

/-- Witness for C8: a tree holding version 1 of `"a"`; a colliding list
with version 2 replaces it, one with version 1 is discarded. -/
theorem c8_openFS_version_collision_witness :
    flookup
      [(['a'], { name := ['a'], blocks := some [{ Name := ['a'], Version := 1 }] })]
      ['a'] =
      some { name := ['a'], blocks := some [{ Name := ['a'], Version := 1 }] } ∧
    flookup (openFSAdd
      [(['a'], { name := ['a'], blocks := some [{ Name := ['a'], Version := 1 }] })]
      ['a'] [{ Name := ['a'], Version := 2 }]) ['a'] =
      some { name := ['a'], blocks := some [{ Name := ['a'], Version := 2 }] } ∧
    flookup (openFSAdd
      [(['a'], { name := ['a'], blocks := some [{ Name := ['a'], Version := 1 }] })]
      ['a'] [{ Name := ['a'], Version := 1 }]) ['a'] =
      some { name := ['a'], blocks := some [{ Name := ['a'], Version := 1 }] } :=
  ⟨rfl,
   ((c8_openFS_version_collision
      [(['a'], { name := ['a'], blocks := some [{ Name := ['a'], Version := 1 }] })]
      ['a'] [{ Name := ['a'], Version := 2 }]
      { name := ['a'], blocks := some [{ Name := ['a'], Version := 1 }] }
      rfl).2 [{ Name := ['a'], Version := 1 }] rfl).1 (by decide),
   ((c8_openFS_version_collision
      [(['a'], { name := ['a'], blocks := some [{ Name := ['a'], Version := 1 }] })]
      ['a'] [{ Name := ['a'], Version := 1 }]
      { name := ['a'], blocks := some [{ Name := ['a'], Version := 1 }] }
      rfl).2 [{ Name := ['a'], Version := 1 }] rfl).2 (by decide)⟩

/-- `strings.HasPrefix pre l` over char lists. -/
def startsWithL : List Char → List Char → Bool
  | [], _ => true
  | _ :: _, [] => false
  | a :: as, b :: bs => if a = b then startsWithL as bs else false

/-- `RarFS.Sub`'s loop over the tree (fs.go:260-264): keep the entries
whose key has the prefix `dir ++ "/"`, rekeyed by
`strings.TrimPrefix`. -/
def subEntries (t : Ftree) (dir : List Char) : Ftree :=
  t.filterMap (fun kv =>
    if startsWithL (dir ++ [slashChar]) kv.1 then
      some (kv.1.drop (dir.length + 1), kv.2)
    else none)

/-- `RarFS.Sub` (fs.go:239-266): `"."` returns the receiver; otherwise
validate, require an existing directory node, and build the sub-tree
with a fresh `"."` root sharing the directory's children. -/
def rarFSSub (t : Ftree) (dir : List Char) : Except FsErr Ftree :=
  if dir = dotPath then .ok t
  else if validPath dir = false then .error .invalid
  else
    (flookup t dir).elim (.error .notExist) (fun node =>
      if nodeIsDir node = false then .error .invalid
      else .ok ((dotPath, { name := dotPath, blocks := none,
                            files := node.files }) :: subEntries t dir))

/-- `RarFS.Open` (fs.go:140-160) up to node resolution: validate the
path, look it up, and fail with the `PathError` cause `ErrInvalid` or
`ErrNotExist`.  What `Open` then returns — the `dirFile` for a
directory node or the decode stack over `node.blocks` — is a function
of the resolved node, so node equality gives result equality. -/
def fsOpen (t : Ftree) (name : List Char) : Except FsErr fsNode :=
  if validPath name = false then .error .invalid
  else
    (flookup t name).elim (.error .notExist) .ok

theorem startsWithL_eq_append (pre : List Char) :
    ∀ l : List Char, startsWithL pre l = true → l = pre ++ l.drop pre.length := by
  induction pre with
  | nil => intro l _; simp
  | cons a as ih =>
      intro l hl
      match l with
      | [] => simp [startsWithL] at hl
      | b :: bs =>
          simp only [startsWithL] at hl
          by_cases hab : a = b
          · subst hab
            simp only [if_pos rfl] at hl
            have := ih bs hl
            simpa using this
          · simp [if_neg hab] at hl

theorem startsWithL_append_self (pre s : List Char) :
    startsWithL pre (pre ++ s) = true := by
  induction pre with
  | nil => rfl
  | cons a as ih => simpa [startsWithL] using ih

theorem flookup_subEntries (t : Ftree) (dir rel : List Char) :
    flookup (subEntries t dir) rel = flookup t (dir ++ slashChar :: rel) := by
  induction t with
  | nil => rfl
  | cons kv rest ih =>
      obtain ⟨k, v⟩ := kv
      have hconc : (dir ++ [slashChar]) ++ rel = dir ++ slashChar :: rel := by
        simp
      by_cases hp : startsWithL (dir ++ [slashChar]) k = true
      · have hk : k = (dir ++ [slashChar]) ++ k.drop (dir.length + 1) := by
          have h1 := startsWithL_eq_append (dir ++ [slashChar]) k hp
          simpa using h1
        simp only [subEntries, List.filterMap_cons, hp, if_pos]
        simp only [flookup]
        by_cases hs : k.drop (dir.length + 1) = rel
        · rw [if_pos hs]
          have hkr : k = dir ++ slashChar :: rel := by
            rw [hk, hs, hconc]
          rw [if_pos hkr]
        · rw [if_neg hs]
          have hkr : ¬ k = dir ++ slashChar :: rel := by
            intro hcontra
            apply hs
            rw [hcontra, ← hconc]
            simp
          rw [if_neg hkr]
          simpa [subEntries] using ih
      · have hkr : ¬ k = dir ++ slashChar :: rel := by
          intro hcontra
          apply hp
          rw [hcontra, ← hconc]
          exact startsWithL_append_self (dir ++ [slashChar]) rel
        simp only [subEntries, List.filterMap_cons,
          Bool.not_eq_true] at hp ⊢
        rw [hp]
        simp only [flookup, if_neg hkr]
        simpa [subEntries] using ih

theorem splitOnSlash_ne_nil : ∀ p : List Char, splitOnSlash p ≠ [] := by
  intro p
  match p with
  | [] => simp [splitOnSlash]
  | c :: t =>
      unfold splitOnSlash
      split
      · simp
      · split <;> simp

theorem splitOnSlash_append (a b : List Char) :
    splitOnSlash (a ++ slashChar :: b) = splitOnSlash a ++ splitOnSlash b := by
  induction a with
  | nil => simp [splitOnSlash]
  | cons c a' ih =>
      by_cases hc : c = slashChar
      · subst hc
        simp [splitOnSlash, ih]
      · obtain ⟨e, es, hsp⟩ : ∃ e es, splitOnSlash a' = e :: es := by
          cases h : splitOnSlash a' with
          | nil => exact absurd h (splitOnSlash_ne_nil a')
          | cons e es => exact ⟨e, es, rfl⟩
        simp [splitOnSlash, hc, ih, hsp]

theorem concat_ne_dotPath (dir rel : List Char) :
    dir ++ slashChar :: rel ≠ dotPath := by
  intro h
  match dir with
  | [] => simp [dotPath, slashChar] at h
  | c :: d => simp [dotPath] at h

theorem validPath_concat (dir rel : List Char) :
    validPath (dir ++ slashChar :: rel) =
      ((splitOnSlash dir).all goodElem && (splitOnSlash rel).all goodElem) := by
  rw [Bool.eq_iff_iff]
  unfold validPath
  rw [splitOnSlash_append]
  simp [concat_ne_dotPath dir rel]

theorem validPath_all (p : List Char) (hne : p ≠ dotPath)
    (hv : validPath p = true) : (splitOnSlash p).all goodElem = true := by
  unfold validPath at hv
  simpa [hne] using hv

/-- C9 (amended): for a directory `dir` in the tree other than the root
`"."` and every relative path `rel` other than `"."`,
`Sub(dir).Open(rel)` resolves exactly as the root's
`Open(dir + "/" + rel)` — the same node on success and the same error
otherwise.  (For `rel = "."` the two sides differ, which is what the
counterexample shows: `dir + "/."` is never a valid path, while the
sub-filesystem's `"."` opens its synthesized root.) -/
theorem c9_sub_open_agrees (t : Ftree) (dir : List Char) (node : fsNode)
    (hdot : dir ≠ dotPath) (hv : validPath dir = true)
    (hlk : flookup t dir = some node) (hdir : nodeIsDir node = true) :
    ∀ rel : List Char, rel ≠ dotPath →
      ∃ sub, rarFSSub t dir = .ok sub ∧
        fsOpen sub rel = fsOpen t (dir ++ slashChar :: rel) := by
  intro rel hrel
  refine ⟨(dotPath,
      { name := dotPath, blocks := none, files := node.files }) ::
      subEntries t dir, ?_, ?_⟩
  · unfold rarFSSub
    rw [if_neg hdot, if_neg (by rw [hv]; simp), hlk]
    simp only [Option.elim_some]
    rw [if_neg (by rw [hdir]; simp)]
  · unfold fsOpen
    by_cases hvr : validPath rel = true
    · have hallrel : (splitOnSlash rel).all goodElem = true :=
        validPath_all rel hrel hvr
      have halldir : (splitOnSlash dir).all goodElem = true :=
        validPath_all dir hdot hv
      have hvc : validPath (dir ++ slashChar :: rel) = true := by
        rw [validPath_concat, halldir, hallrel]
        rfl
      rw [if_neg (by rw [hvr]; simp), if_neg (by rw [hvc]; simp)]
      have hlook : flookup ((dotPath,
          { name := dotPath, blocks := none, files := node.files }) ::
            subEntries t dir) rel = flookup t (dir ++ slashChar :: rel) := by
        simp only [flookup]
        rw [if_neg (fun hcontra => hrel hcontra.symm)]
        exact flookup_subEntries t dir rel
      rw [hlook]
    · have hallrel : (splitOnSlash rel).all goodElem = false := by
        cases hall : (splitOnSlash rel).all goodElem with
        | false => rfl
        | true =>
            exact absurd (by unfold validPath; simp [hall]) hvr
      have hvc : validPath (dir ++ slashChar :: rel) = false := by
        rw [validPath_concat, hallrel]
        simp
      have hvrf : validPath rel = false := by
        cases hb : validPath rel with
        | false => rfl
        | true => exact absurd hb hvr
      rw [if_pos hvrf, if_pos hvc]

/-- C9 counterexample: the claim as stated fails at `rel = "."`: in the
tree `{"a" ↦ dir, "a/b" ↦ file}`, `Sub("a").Open(".")` succeeds with
the synthesized sub-root, while the root's `Open("a" + "/" + ".")`
fails with `ErrInvalid` (the string `"a/."` is not a valid path), so
the two calls neither resolve to the same node nor fail in the same
cases. -/
theorem c9_counterexample :
    rarFSSub
        [(['a'], { name := ['a'], blocks := none, files := [['a', '/', 'b']] }),
         (['a', '/', 'b'], { name := [], blocks := some [{ Name := ['a', '/', 'b'] }] })]
        ['a'] =
      .ok [(dotPath, { name := dotPath, blocks := none, files := [['a', '/', 'b']] }),
           (['b'], { name := [], blocks := some [{ Name := ['a', '/', 'b'] }] })] ∧
    fsOpen [(dotPath, { name := dotPath, blocks := none, files := [['a', '/', 'b']] }),
            (['b'], { name := [], blocks := some [{ Name := ['a', '/', 'b'] }] })]
        dotPath =
      .ok { name := dotPath, blocks := none, files := [['a', '/', 'b']] } ∧
    fsOpen
        [(['a'], { name := ['a'], blocks := none, files := [['a', '/', 'b']] }),
         (['a', '/', 'b'], { name := [], blocks := some [{ Name := ['a', '/', 'b'] }] })]
        (['a'] ++ slashChar :: dotPath) =
      .error .invalid :=
  ⟨rfl, rfl, rfl⟩

/-- Witness for C9 (amended) on the same two-entry tree with
`rel = "b"`. -/
theorem c9_sub_open_agrees_witness :
    (['a'] : List Char) ≠ dotPath ∧ validPath ['a'] = true ∧
    (∃ sub,
      rarFSSub
          [(['a'], { name := ['a'], blocks := none, files := [['a', '/', 'b']] }),
           (['a', '/', 'b'], { name := [], blocks := some [{ Name := ['a', '/', 'b'] }] })]
          ['a'] = .ok sub ∧
      fsOpen sub ['b'] =
        fsOpen
          [(['a'], { name := ['a'], blocks := none, files := [['a', '/', 'b']] }),
           (['a', '/', 'b'], { name := [], blocks := some [{ Name := ['a', '/', 'b'] }] })]
          (['a'] ++ slashChar :: ['b'])) :=
  ⟨by decide, by decide,
   c9_sub_open_agrees
     [(['a'], { name := ['a'], blocks := none, files := [['a', '/', 'b']] }),
      (['a', '/', 'b'], { name := [], blocks := some [{ Name := ['a', '/', 'b'] }] })]
     ['a'] { name := ['a'], blocks := none, files := [['a', '/', 'b']] }
     (by decide) (by decide) rfl rfl ['b'] (by decide)⟩
